import Mathlib

/-!
Verification of the qrgen batch rendering pipeline: a shallow embedding of
src/chunker.rs (batch reader), src/exporter.rs (checked geometry and PNG
rasterizer) and src/generator.rs (per batch fan out), with theorems about the
batching, overflow checking, pixel mapping and error isolation behaviour.
-/

namespace QrGen

/-- A decoded CSV row (csv::StringRecord): an ordered list of string fields. -/
abbrev Row := List String

/-- One read attempt of the underlying csv reader, as consumed by Chunker::next:
some row on Ok, none on Err (the csv error itself is only logged via warn). -/
abbrev RowAttempt := Option Row

/-- Fueled recursion computing the stream of batches produced by repeatedly
calling Chunker::next (src/chunker.rs lines 25 to 49).  Each call reads up to
chunk_size attempts from the reader (the enumerate loop breaks once total
equals chunk_size - 1, and ends early when the reader is exhausted), pushes the
Ok rows, and returns None when no pushed row survived, which ends the stream;
otherwise it yields the pushed rows and the stream continues on the remaining
attempts.  The fuel argument only forces termination of the recursion: it is
always at least the number of remaining attempts and each step consumes at
least one attempt, so the zero fuel case for a nonempty list is never reached
when starting from chunkerBatches. -/
def chunkerBatchesAux (chunk_size : Nat) : Nat → List RowAttempt → List (List Row)
  | _, [] => []
  | 0, _ :: _ => []
  | fuel + 1, r :: rs =>
    if (((r :: rs).take chunk_size).filterMap id).isEmpty then []
    else
      ((r :: rs).take chunk_size).filterMap id ::
        chunkerBatchesAux chunk_size fuel (rs.drop (chunk_size - 1))

/-- The full batch sequence obtained by iterating Chunker::next until it
returns None (the downstream for loop in Generator::process_file stops there). -/
def chunkerBatches (chunk_size : Nat) (rows : List RowAttempt) : List (List Row) :=
  chunkerBatchesAux chunk_size rows.length rows

/-- Fueled companion of chunkerBatchesAux: true when no group of chunk_size
attempted reads consists entirely of failed rows, i.e. every call to
Chunker::next that still has attempts left pushes at least one row. -/
def noDeadChunkAux (chunk_size : Nat) : Nat → List RowAttempt → Bool
  | _, [] => true
  | 0, _ :: _ => true
  | fuel + 1, r :: rs =>
    (!(((r :: rs).take chunk_size).filterMap id).isEmpty) &&
      noDeadChunkAux chunk_size fuel (rs.drop (chunk_size - 1))

/-- True when no aligned group of chunk_size attempted reads is entirely
failures. -/
def noDeadChunk (chunk_size : Nat) (rows : List RowAttempt) : Bool :=
  noDeadChunkAux chunk_size rows.length rows

/-- i32::MIN, the lower end of the image dimension integer range. -/
def i32Min : Int := -(2 ^ 31)

/-- i32::MAX, the upper end of the image dimension integer range. -/
def i32Max : Int := 2 ^ 31 - 1

/-- A mathematical integer fits in the platform image dimension range (i32). -/
abbrev inI32 (v : Int) : Prop := i32Min ≤ v ∧ v ≤ i32Max

/-- i32::checked_add on mathematical integers: the exact sum when it fits in
i32, and None when the addition would overflow. -/
def checkedAdd (a b : Int) : Option Int :=
  if i32Min ≤ a + b ∧ a + b ≤ i32Max then some (a + b) else none

/-- i32::checked_mul on mathematical integers: the exact product when it fits
in i32, and None when the multiplication would overflow. -/
def checkedMul (a b : Int) : Option Int :=
  if i32Min ≤ a * b ∧ a * b ≤ i32Max then some (a * b) else none

/-- Checked::checked_size for Option i32 (src/exporter.rs lines 187 to 193):
border.checked_mul(2), then self.checked_add of that, then checked_mul by
scale, any failure giving None. -/
def checked_size (self : Option Int) (scale border : Int) : Option Int :=
  (checkedMul border 2).bind fun b =>
    self.bind fun n => (checkedAdd n b).bind fun a => checkedMul a scale

/-- Checked::checked_length for Option i32 (src/exporter.rs lines 195 to 201):
i32::try_from(colour_depth) for the usize colour depth (which succeeds exactly
when colour_depth is at most i32::MAX), then self.checked_mul(self) followed by
checked_mul with the converted depth. -/
def checked_length (self : Option Int) (colour_depth : Nat) : Option Int :=
  if (colour_depth : Int) ≤ i32Max then
    self.bind fun ps =>
      (checkedMul ps ps).bind fun sq => checkedMul sq (colour_depth : Int)
  else none

/-- Modelled from the spec: the external qrcodegen::QrCode collaborator, an
immutable square grid of boolean modules of side length size, consumed by the
exporter as an opaque matrix. -/
structure QrCode where
  size : Int
  module : Int → Int → Bool

/-- Modelled from the spec: qrcodegen::QrCode::get_module, whose contract
(spec section 4.3 step 3) is that module lookups outside [0, N) in either axis
return unset (false) rather than an error. -/
def get_module (q : QrCode) (x y : Int) : Bool :=
  if 0 ≤ x ∧ x < q.size ∧ 0 ≤ y ∧ y < q.size then q.module x y else false

/-- png::ColorType::RGB.samples(): three bytes per pixel. -/
def colour_type_samples : Nat := 3

/-- The offset_fn closure of Exporter::export_png (src/exporter.rs lines 139
to 141): byte offset of pixel (x, y) in the canvas, (x * cts) + (y * (s * cts)).
The i32 to usize casts in the source are exact because the loop only produces
coordinates in [0, size). -/
def offset_fn (x y s cts : Nat) : Nat := x * cts + y * (s * cts)

/-- The paint condition of the pixel loop (src/exporter.rs lines 154 and 165):
qr_code.get_module(x / scale - border, y / scale - border), with the Rust i32
division truncating toward zero (Int.tdiv). -/
def painted (q : QrCode) (scale border : Int) (x y : Nat) : Bool :=
  get_module q ((x : Int).tdiv scale - border) ((y : Int).tdiv scale - border)

/-- Whether byte index i is one of the three bytes of pixel p, the offsets
offset, offset + 1 and offset + 2 written by the loop body. -/
def hitsByte (s : Nat) (p : Nat × Nat) (i : Nat) : Bool :=
  i == offset_fn p.1 p.2 s colour_type_samples ||
    i == offset_fn p.1 p.2 s colour_type_samples + 1 ||
      i == offset_fn p.1 p.2 s colour_type_samples + 2

/-- One paint step of the loop body (src/exporter.rs lines 152 to 159): when
the back mapped module of pixel p = (x, y) is set, the three canvas bytes at
offset, offset + 1 and offset + 2 are set to the foreground value 0, otherwise
the canvas is left untouched. -/
def paintPixel (q : QrCode) (scale border : Int) (s : Nat) (p : Nat × Nat)
    (data : Nat → Nat) : Nat → Nat :=
  if painted q scale border p.1 p.2 then
    fun i => if hitsByte s p i then 0 else data i
  else data

/-- (0..size).tuple_combinations::<(_, _)>() from itertools: all pairs (a, b)
with a < b < size, in lexicographic order. -/
def tupleCombinations (s : Nat) : List (Nat × Nat) :=
  (List.range s).flatMap fun a =>
    ((List.range s).filter fun b => decide (a < b)).map fun b => (a, b)

/-- (0..size).zip(0..size): the diagonal points (i, i). -/
def diagPoints (s : Nat) : List (Nat × Nat) :=
  (List.range s).zip (List.range s)

/-- The points iterator of export_png (src/exporter.rs lines 144 to 146):
tuple_combinations chained with the diagonal zip. -/
def pointsList (s : Nat) : List (Nat × Nat) :=
  tupleCombinations s ++ diagPoints s

/-- The sequence of pixels painted by the loop body (src/exporter.rs lines 148
to 170): each point is applied twice, first with y = point.0 and x = point.1,
then with y = point.1 and x = point.0; entries are (x, y) pairs in paint
order. -/
def paintSeq (s : Nat) : List (Nat × Nat) :=
  (pointsList s).flatMap fun p => [(p.2, p.1), (p.1, p.2)]

/-- The data buffer built by export_png for geometry size s: a canvas of
background bytes 255 (vec![255_u8; data_length]), folded over the painted
pixel sequence.  Indices are unbounded in the model; the in bounds theorem
shows the loop only ever writes below data_length. -/
def export_png_data (q : QrCode) (scale border : Int) (s : Nat) : Nat → Nat :=
  (paintSeq s).foldl (fun d p => paintPixel q scale border s p d) fun _ => 255

/-- All ordered pixel coordinates (x, y) of a plain nested loop over
[0, s) x [0, s). -/
def allPairs (s : Nat) : List (Nat × Nat) :=
  (List.range s).flatMap fun x => (List.range s).map fun y => (x, y)

/-- The reference canvas painted by a plain nested loop over all pixels. -/
def nestedLoopData (q : QrCode) (scale border : Int) (s : Nat) : Nat → Nat :=
  (allPairs s).foldl (fun d p => paintPixel q scale border s p d) fun _ => 255

/-- Exporter::export_png (src/exporter.rs lines 93 to 178) up to the opaque
PNG encoder: computes size = Some(qr_code.size()).checked_size(scale, border)
and data_length = size.checked_length(colour_type_samples); when both are Some
it builds the canvas and hands it to the encoder (modelled as returning the
canvas and size), otherwise it returns the error value and no image data is
produced or written. -/
def export_png (q : QrCode) (border scale : Int) :
    Except String ((Nat → Nat) × Int) :=
  match checked_size (some q.size) scale border,
      checked_length (checked_size (some q.size) scale border)
        colour_type_samples with
  | some s, some _ => Except.ok (export_png_data q scale border s.toNat, s)
  | _, _ => Except.error "size or data length are out of bounds."

/-- record[0], the identifier field used for the output file name and for the
per record failure log line. -/
def field0 (r : Row) : String := r.headI

/-- The fan out of one batch in Generator::process_file (src/generator.rs
lines 57 to 70): par_iter().filter(record.len() >= 2) keeps exactly the
eligible rows, then each of them is processed independently; proc abstracts
the per record pipeline self.encode(record).and_then(Self::save), whose
internals call the opaque qrcodegen encoder and the filesystem.  The result
records every fanned out row with its own outcome; the list order stands in
for the nondeterministic rayon schedule, which the claims do not depend on. -/
def processChunk (proc : Row → Except String Unit) (chunk : List Row) :
    List (Row × Except String Unit) :=
  (chunk.filter fun r => decide (2 ≤ r.length)).map fun r => (r, proc r)

/-- The warn log lines emitted for one batch (src/generator.rs lines 63 to
69): one entry per fanned out record whose pipeline failed, carrying the
identifier field record[0] and the error. -/
def chunkLogs (proc : Row → Except String Unit) (chunk : List Row) :
    List (String × String) :=
  (chunk.filter fun r => decide (2 ≤ r.length)).filterMap fun r =>
    match proc r with
    | Except.error e => some (field0 r, e)
    | Except.ok _ => none

/-- Generator::process_file over an already opened source (src/generator.rs
lines 52 to 74): every batch is fanned out in turn and the function returns
Ok(()); per record failures are only logged and never change the result. -/
def process_file (proc : Row → Except String Unit) (chunks : List (List Row)) :
    Except String Unit × List (Row × Except String Unit) :=
  (Except.ok (), chunks.flatMap fun c => processChunk proc c)

/-- All warn log lines of one source. -/
def fileLogs (proc : Row → Except String Unit) (chunks : List (List Row)) :
    List (String × String) :=
  chunks.flatMap fun c => chunkLogs proc c

theorem chunkerBatchesAux_fuel (chunk_size : Nat) :
    ∀ (f g : Nat) (rows : List RowAttempt), rows.length ≤ f → rows.length ≤ g →
      chunkerBatchesAux chunk_size f rows = chunkerBatchesAux chunk_size g rows := by
  intro f
  induction f with
  | zero =>
    intro g rows hf _
    cases rows with
    | nil => cases g <;> rfl
    | cons r rs => simp at hf
  | succ f ih =>
    intro g rows hf hg
    cases rows with
    | nil => cases g <;> rfl
    | cons r rs =>
      cases g with
      | zero => simp at hg
      | succ g =>
        simp only [chunkerBatchesAux]
        have h1 : (rs.drop (chunk_size - 1)).length ≤ f := by
          simp only [List.length_cons, Nat.succ_le_succ_iff] at hf
          simp only [List.length_drop]
          omega
        have h2 : (rs.drop (chunk_size - 1)).length ≤ g := by
          simp only [List.length_cons, Nat.succ_le_succ_iff] at hg
          simp only [List.length_drop]
          omega
        rw [ih g (rs.drop (chunk_size - 1)) h1 h2]

theorem chunkerBatches_cons (chunk_size : Nat) (r : RowAttempt)
    (rs : List RowAttempt) :
    chunkerBatches chunk_size (r :: rs) =
      if (((r :: rs).take chunk_size).filterMap id).isEmpty then []
      else
        ((r :: rs).take chunk_size).filterMap id ::
          chunkerBatches chunk_size (rs.drop (chunk_size - 1)) := by
  show chunkerBatchesAux chunk_size (rs.length + 1) (r :: rs) = _
  simp only [chunkerBatchesAux]
  rw [chunkerBatchesAux_fuel chunk_size rs.length
      (rs.drop (chunk_size - 1)).length (rs.drop (chunk_size - 1))
      (by simp only [List.length_drop]; omega) le_rfl]
  rfl

theorem noDeadChunk_cons (chunk_size : Nat) (r : RowAttempt)
    (rs : List RowAttempt) :
    noDeadChunk chunk_size (r :: rs) =
      ((!(((r :: rs).take chunk_size).filterMap id).isEmpty) &&
        noDeadChunk chunk_size (rs.drop (chunk_size - 1))) := by
  show noDeadChunkAux chunk_size (rs.length + 1) (r :: rs) = _
  simp only [noDeadChunkAux]
  have : ∀ (f g : Nat) (rows : List RowAttempt),
      rows.length ≤ f → rows.length ≤ g →
      noDeadChunkAux chunk_size f rows = noDeadChunkAux chunk_size g rows := by
    intro f
    induction f with
    | zero =>
      intro g rows hf _
      cases rows with
      | nil => cases g <;> rfl
      | cons a as => simp at hf
    | succ f ih =>
      intro g rows hf hg
      cases rows with
      | nil => cases g <;> rfl
      | cons a as =>
        cases g with
        | zero => simp at hg
        | succ g =>
          simp only [noDeadChunkAux]
          rw [ih g (as.drop (chunk_size - 1))
              (by simp only [List.length_cons, Nat.succ_le_succ_iff] at hf
                  simp only [List.length_drop]; omega)
              (by simp only [List.length_cons, Nat.succ_le_succ_iff] at hg
                  simp only [List.length_drop]; omega)]
  rw [this rs.length (rs.drop (chunk_size - 1)).length (rs.drop (chunk_size - 1))
      (by simp only [List.length_drop]; omega) le_rfl]
  rfl

theorem drop_cons_of_pos {α : Type} (chunk_size : Nat) (hcs : 0 < chunk_size)
    (r : α) (rs : List α) :
    (r :: rs).drop chunk_size = rs.drop (chunk_size - 1) := by
  cases chunk_size with
  | zero => omega
  | succ k => rfl

/-- C1 counterexample: with chunk_size 1 and the attempt sequence failure then
success, the batch sequence is empty, so its concatenation misses the one
successfully decoded row and the batching is not lossless as claimed. -/
theorem c1_cex :
    ¬ ((chunkerBatches 1 [none, some (["x", "y"] : Row)]).flatten =
        ([none, some (["x", "y"] : Row)] : List RowAttempt).filterMap id) := by
  decide

/-- C1 (amended): for positive chunk_size every emitted batch is nonempty of
length at most chunk_size, and provided no aligned group of chunk_size
attempted reads consists entirely of failures, the batches concatenate to
exactly the successfully decoded rows in their original order (a lossless
ordered partition).  The proviso is forced by the counterexample: an all
failed group makes Chunker::next return None, which truncates the stream. -/
theorem c1_batching (chunk_size : Nat) (rows : List RowAttempt)
    (hcs : 0 < chunk_size) :
    (∀ b ∈ chunkerBatches chunk_size rows, b ≠ [] ∧ b.length ≤ chunk_size) ∧
      (noDeadChunk chunk_size rows = true →
        (chunkerBatches chunk_size rows).flatten = rows.filterMap id) := by
  suffices h : ∀ (n : Nat) (rows : List RowAttempt), rows.length ≤ n →
      (∀ b ∈ chunkerBatches chunk_size rows, b ≠ [] ∧ b.length ≤ chunk_size) ∧
        (noDeadChunk chunk_size rows = true →
          (chunkerBatches chunk_size rows).flatten = rows.filterMap id) from
    h rows.length rows le_rfl
  intro n
  induction n with
  | zero =>
    intro rows hlen
    have hnil : rows = [] := List.length_eq_zero.mp (Nat.le_zero.mp hlen)
    subst hnil
    refine ⟨?_, ?_⟩
    · intro b hb
      cases hb
    · intro _
      rfl
  | succ n ih =>
    intro rows hlen
    cases rows with
    | nil =>
      refine ⟨?_, ?_⟩
      · intro b hb
        cases hb
      · intro _
        rfl
    | cons r rs =>
      rw [chunkerBatches_cons, noDeadChunk_cons]
      have hrec := ih (rs.drop (chunk_size - 1))
        (by simp only [List.length_cons, Nat.succ_le_succ_iff] at hlen
            simp only [List.length_drop]; omega)
      by_cases hemp : (((r :: rs).take chunk_size).filterMap id).isEmpty = true
      · refine ⟨?_, ?_⟩
        · rw [if_pos hemp]
          intro b hb
          cases hb
        · intro hnd
          rw [hemp] at hnd
          simp at hnd
      · have hemp2 : (((r :: rs).take chunk_size).filterMap id).isEmpty = false := by
          revert hemp
          cases (((r :: rs).take chunk_size).filterMap id).isEmpty <;> simp
        refine ⟨?_, ?_⟩
        · rw [if_neg hemp]
          intro b hb
          rcases List.mem_cons.mp hb with hb | hb
          · subst hb
            refine ⟨by simpa [List.isEmpty_iff] using hemp, ?_⟩
            calc (((r :: rs).take chunk_size).filterMap id).length
                ≤ ((r :: rs).take chunk_size).length :=
                  List.length_filterMap_le _ _
              _ ≤ chunk_size := by simp [List.length_take]
          · exact hrec.1 b hb
        · intro hnd
          rw [if_neg hemp]
          rw [hemp2] at hnd
          simp only [Bool.not_false, Bool.true_and] at hnd
          rw [List.flatten_cons, hrec.2 hnd]
          have hsplit : (r :: rs) =
              (r :: rs).take chunk_size ++ rs.drop (chunk_size - 1) := by
            rw [← drop_cons_of_pos chunk_size hcs r rs,
              List.take_append_drop]
          calc ((r :: rs).take chunk_size).filterMap id ++
                (rs.drop (chunk_size - 1)).filterMap id
              = ((r :: rs).take chunk_size ++
                  rs.drop (chunk_size - 1)).filterMap id := by
                rw [List.filterMap_append]
            _ = (r :: rs).filterMap id := by rw [← hsplit]

/-- C1 witness: chunk_size 2 over attempts success, failure, success has no all
failed group, and the emitted batches concatenate to the two decoded rows. -/
theorem c1_witness :
    (chunkerBatches 2
        [some (["a", "b"] : Row), none, some (["c", "d"] : Row)]).flatten =
      ([some (["a", "b"] : Row), none, some (["c", "d"] : Row)] :
        List RowAttempt).filterMap id :=
  (c1_batching 2 [some (["a", "b"] : Row), none, some (["c", "d"] : Row)]
    (by decide)).2 (by decide)

/-- C5: the code contradicts the claim at this input.  With chunk_size 2 and
attempts failure, failure, success, the first call to Chunker::next reads two
attempts, pushes nothing, and returns None: the batch sequence is empty, so
the all failed group ends the stream while a decodable row remains, instead of
being skipped.  The second conjunct shows a successfully decoded row was
dropped. -/
theorem c5_all_failed_chunk_ends_stream :
    chunkerBatches 2 [none, none, some (["a", "b"] : Row)] = [] ∧
      ([none, none, some (["a", "b"] : Row)] : List RowAttempt).filterMap id =
        [(["a", "b"] : Row)] := by
  decide

/-- C2: for every n, border and scale in the i32 range, checked_size returns
exactly some ((n + 2 * border) * scale) when 2 * border, n + 2 * border and
(n + 2 * border) * scale each fit in i32, and returns None, never a wrapped
value, when any of these intermediate steps would overflow. -/
theorem c2_checked_size (n border scale : Int) (hn : inI32 n) (hb : inI32 border)
    (hs : inI32 scale) :
    checked_size (some n) scale border =
      if inI32 (2 * border) ∧ inI32 (n + 2 * border) ∧
          inI32 ((n + 2 * border) * scale)
      then some ((n + 2 * border) * scale) else none := by
  have e1 : border * 2 = 2 * border := by ring
  unfold checked_size checkedMul checkedAdd
  rw [e1]
  by_cases h1 : i32Min ≤ 2 * border ∧ 2 * border ≤ i32Max
  · rw [if_pos h1]
    simp only [Option.some_bind]
    by_cases h2 : i32Min ≤ n + 2 * border ∧ n + 2 * border ≤ i32Max
    · rw [if_pos h2]
      simp only [Option.some_bind]
      by_cases h3 : i32Min ≤ (n + 2 * border) * scale ∧
          (n + 2 * border) * scale ≤ i32Max
      · rw [if_pos h3, if_pos ⟨h1, h2, h3⟩]
      · rw [if_neg h3, if_neg fun hc => h3 hc.2.2]
    · rw [if_neg h2, if_neg fun hc => h2 hc.2.1]
      rfl
  · rw [if_neg h1, if_neg fun hc => h1 hc.1]
    rfl

/-- C2 witness: at n = 21, border = 4, scale = 10 all steps fit and the result
is some 290. -/
theorem c2_witness :
    checked_size (some 21) 10 4 =
      if inI32 (2 * 4) ∧ inI32 (21 + 2 * 4) ∧ inI32 ((21 + 2 * 4) * 10)
      then some ((21 + 2 * 4) * 10) else none :=
  c2_checked_size 21 4 10 (by decide) (by decide) (by decide)

/-- C3: for every i32 pixel size and usize colour depth, checked_length
returns exactly some (pixel_size * pixel_size * colour_depth) when the square,
the product with the depth and the depth itself fit in i32, and None
otherwise, the squaring step itself being overflow checked; moreover the
concrete geometry n = 21, border = 4, scale = 10 gives size 290 and byte
length 290 * 290 * 3 = 252300. -/
theorem c3_checked_length :
    (∀ (ps : Int) (cd : Nat), inI32 ps →
        checked_length (some ps) cd =
          if inI32 (ps * ps) ∧ inI32 (ps * ps * (cd : Int)) ∧
              (cd : Int) ≤ i32Max
          then some (ps * ps * (cd : Int)) else none) ∧
      checked_size (some 21) 10 4 = some 290 ∧
        checked_length (some 290) 3 = some 252300 := by
  refine ⟨?_, by decide, by decide⟩
  intro ps cd hps
  unfold checked_length checkedMul
  by_cases h0 : (cd : Int) ≤ i32Max
  · rw [if_pos h0]
    simp only [Option.some_bind]
    by_cases h1 : i32Min ≤ ps * ps ∧ ps * ps ≤ i32Max
    · rw [if_pos h1]
      simp only [Option.some_bind]
      by_cases h2 : i32Min ≤ ps * ps * (cd : Int) ∧ ps * ps * (cd : Int) ≤ i32Max
      · rw [if_pos h2, if_pos ⟨h1, h2, h0⟩]
      · rw [if_neg h2, if_neg fun hc => h2 hc.2.1]
    · rw [if_neg h1, if_neg fun hc => h1 hc.1]
      rfl
  · rw [if_neg h0, if_neg fun hc => h0 hc.2.2]

/-- C3 witness: 290 fits in i32 and checked_length of 290 at depth 3 takes the
no overflow branch. -/
theorem c3_witness :
    inI32 (290 : Int) ∧
      checked_length (some 290) 3 =
        if inI32 ((290 : Int) * 290) ∧
            inI32 ((290 : Int) * 290 * ((3 : Nat) : Int)) ∧
            ((3 : Nat) : Int) ≤ i32Max
        then some ((290 : Int) * 290 * ((3 : Nat) : Int)) else none :=
  ⟨by decide, c3_checked_length.1 290 3 (by decide)⟩

/-- C6: whenever checked_size or checked_length reports overflow, export_png
fails as a whole with the single out of bounds error and produces no canvas:
no partially rendered image data reaches the PNG encoder. -/
theorem c6_geometry_overflow_fails (q : QrCode) (border scale : Int)
    (h : checked_size (some q.size) scale border = none ∨
      checked_length (checked_size (some q.size) scale border)
          colour_type_samples = none) :
    export_png q border scale =
      Except.error "size or data length are out of bounds." := by
  unfold export_png
  rcases h with h | h
  · rw [h]
  · rw [h]
    rcases hs : checked_size (some q.size) scale border with _ | s
    · rfl
    · rfl

/-- C6 witness: a matrix of side i32::MAX with border 0 and scale 2 overflows
checked_size, and export_png returns the error. -/
theorem c6_witness :
    export_png ⟨2 ^ 31 - 1, fun _ _ => false⟩ 0 2 =
      Except.error "size or data length are out of bounds." :=
  c6_geometry_overflow_fails ⟨2 ^ 31 - 1, fun _ _ => false⟩ 0 2
    (Or.inl (by decide))

/-- C7: a row enters the fan out of a batch exactly when it has at least two
fields: everything fanned out came from the batch, is eligible and carries its
own pipeline result; every eligible row of the batch is fanned out with its
result; and every log entry of the batch originates from an eligible row whose
pipeline failed, so an excluded short row produces no error and no log entry. -/
theorem c7_eligibility (proc : Row → Except String Unit) (chunk : List Row)
    (r : Row) (x : Except String Unit) :
    ((r, x) ∈ processChunk proc chunk → r ∈ chunk ∧ 2 ≤ r.length ∧ x = proc r) ∧
      (r ∈ chunk → 2 ≤ r.length → (r, proc r) ∈ processChunk proc chunk) ∧
      (∀ l ∈ chunkLogs proc chunk, ∃ r2, r2 ∈ chunk ∧ 2 ≤ r2.length ∧
        l.1 = field0 r2 ∧ proc r2 = Except.error l.2) := by
  refine ⟨?_, ?_, ?_⟩
  · intro hmem
    rcases List.mem_map.mp hmem with ⟨a, ha, heq⟩
    rcases List.mem_filter.mp ha with ⟨hac, hlen⟩
    rcases Prod.mk.injEq .. ▸ heq with ⟨h1, h2⟩
    subst h1
    exact ⟨hac, by simpa using hlen, h2.symm⟩
  · intro hmem hlen
    exact List.mem_map.mpr ⟨r, List.mem_filter.mpr ⟨hmem, by simpa using hlen⟩, rfl⟩
  · intro l hl
    rcases List.mem_filterMap.mp hl with ⟨a, ha, heq⟩
    rcases List.mem_filter.mp ha with ⟨hac, hlen⟩
    refine ⟨a, hac, by simpa using hlen, ?_, ?_⟩
    · rcases hp : proc a with e | u <;> rw [hp] at heq
      · simp only [Option.some.injEq] at heq
        rw [← heq]
      · cases heq
    · rcases hp : proc a with e | u <;> rw [hp] at heq
      · simp only [Option.some.injEq] at heq
        rw [← heq]
      · cases heq

/-- C7 witness: in a batch holding a one field row and a two field row, the
two field row is fanned out with its own result. -/
theorem c7_witness :
    ((["id", "pay"] : Row), Except.error "boom") ∈
      processChunk (fun _ => Except.error "boom") [["solo"], ["id", "pay"]] :=
  (c7_eligibility (fun _ => Except.error "boom") [["solo"], ["id", "pay"]]
    ["id", "pay"] (Except.error "boom")).2.1 (by decide) (by decide)

/-- C8: when an eligible record r of batch c fails with error e, the failure
is logged with the identifier field of r; every eligible record r2 of any
batch of the same source is still fanned out with its own result, regardless
of the failure of r; and process_file still returns Ok, so a per record
failure never fails the source and processing of later batches and sources
continues. -/
theorem c8_failure_isolation (proc : Row → Except String Unit)
    (chunks : List (List Row)) (c c2 : List Row) (r r2 : Row) (e : String)
    (hc : c ∈ chunks) (hr : r ∈ c) (hlen : 2 ≤ r.length)
    (herr : proc r = Except.error e)
    (hc2 : c2 ∈ chunks) (hr2 : r2 ∈ c2) (hlen2 : 2 ≤ r2.length) :
    (field0 r, e) ∈ fileLogs proc chunks ∧
      (r2, proc r2) ∈ (process_file proc chunks).2 ∧
      (process_file proc chunks).1 = Except.ok () := by
  refine ⟨?_, ?_, rfl⟩
  · refine List.mem_flatMap.mpr ⟨c, hc, ?_⟩
    refine List.mem_filterMap.mpr ⟨r, List.mem_filter.mpr ⟨hr, by simpa using hlen⟩, ?_⟩
    rw [herr]
  · refine List.mem_flatMap.mpr ⟨c2, hc2, ?_⟩
    exact List.mem_map.mpr ⟨r2, List.mem_filter.mpr ⟨hr2, by simpa using hlen2⟩, rfl⟩

/-- C8 witness: in a batch where the record with identifier bad fails to
encode, the failure is logged under bad, the sibling record ok is still
processed with its own successful result, and the source result is Ok. -/
theorem c8_witness :
    ("bad", "enc") ∈
        fileLogs
          (fun r => if field0 r = "bad" then Except.error "enc" else Except.ok ())
          [[["bad", "p"], ["ok", "p"]]] ∧
      ((["ok", "p"] : Row), Except.ok ()) ∈
        (process_file
          (fun r => if field0 r = "bad" then Except.error "enc" else Except.ok ())
          [[["bad", "p"], ["ok", "p"]]]).2 ∧
      (process_file
          (fun r => if field0 r = "bad" then Except.error "enc" else Except.ok ())
          [[["bad", "p"], ["ok", "p"]]]).1 = Except.ok () :=
  c8_failure_isolation
    (fun r => if field0 r = "bad" then Except.error "enc" else Except.ok ())
    [[["bad", "p"], ["ok", "p"]]] [["bad", "p"], ["ok", "p"]]
    [["bad", "p"], ["ok", "p"]] ["bad", "p"] ["ok", "p"] "enc"
    (by decide) (by decide) (by decide) (by rfl)
    (by decide) (by decide) (by decide)

theorem foldl_paint_eval (q : QrCode) (scale border : Int) (s : Nat)
    (L : List (Nat × Nat)) (d : Nat → Nat) (i : Nat) :
    (L.foldl (fun d p => paintPixel q scale border s p d) d) i =
      if L.any fun p => painted q scale border p.1 p.2 && hitsByte s p i
      then 0 else d i := by
  induction L generalizing d with
  | nil => simp
  | cons p L ih =>
    rw [List.foldl_cons, ih, List.any_cons]
    unfold paintPixel
    cases hp : painted q scale border p.1 p.2 <;>
      cases hi : hitsByte s p i <;>
        simp only [hp, hi, Bool.false_and, Bool.true_and, Bool.false_or,
          Bool.true_or, Bool.false_eq_true, eq_self_iff_true, if_false,
          if_true, ite_self]

theorem bytes_addr_inj {s x y x2 y2 k k2 : Nat} (hx : x < s) (hx2 : x2 < s)
    (hk : k < 3) (hk2 : k2 < 3)
    (h : offset_fn x y s colour_type_samples + k =
      offset_fn x2 y2 s colour_type_samples + k2) :
    x = x2 ∧ y = y2 ∧ k = k2 := by
  unfold offset_fn colour_type_samples at h
  have e1 : x * 3 + y * (s * 3) + k = (x + y * s) * 3 + k := by ring
  have e2 : x2 * 3 + y2 * (s * 3) + k2 = (x2 + y2 * s) * 3 + k2 := by ring
  rw [e1, e2] at h
  have key : ∀ P Q a b : Nat, a < 3 → b < 3 → P * 3 + a = Q * 3 + b →
      P = Q ∧ a = b := by
    intro P Q a b ha hb hh
    omega
  obtain ⟨hPQ, hkk⟩ := key _ _ _ _ hk hk2 h
  have hxx : x = x2 := by
    have hm : (x + y * s) % s = (x2 + y2 * s) % s := by rw [hPQ]
    rw [Nat.mul_comm y s, Nat.mul_comm y2 s] at hm
    rw [Nat.add_mul_mod_self_left, Nat.add_mul_mod_self_left] at hm
    rwa [Nat.mod_eq_of_lt hx, Nat.mod_eq_of_lt hx2] at hm
  subst hxx
  have hmul : y * s = y2 * s := Nat.add_left_cancel hPQ
  have hs0 : 0 < s := Nat.lt_of_le_of_lt (Nat.zero_le x) hx
  exact ⟨rfl, Nat.eq_of_mul_eq_mul_right hs0 hmul, hkk⟩

theorem mem_tupleCombinations {s a b : Nat} :
    (a, b) ∈ tupleCombinations s ↔ a < b ∧ b < s := by
  unfold tupleCombinations
  simp only [List.mem_flatMap, List.mem_map, List.mem_filter, List.mem_range,
    decide_eq_true_eq, Prod.mk.injEq]
  constructor
  · rintro ⟨a1, ha1, b1, ⟨hb1, hab⟩, h1, h2⟩
    omega
  · rintro ⟨hab, hbs⟩
    exact ⟨a, by omega, b, ⟨hbs, hab⟩, rfl, rfl⟩

theorem zip_self_eq_map (l : List Nat) : l.zip l = l.map fun i => (i, i) := by
  induction l with
  | nil => rfl
  | cons a l ih => simp only [List.zip_cons_cons, List.map_cons, ih]

theorem mem_diagPoints {s a b : Nat} :
    (a, b) ∈ diagPoints s ↔ a = b ∧ a < s := by
  unfold diagPoints
  rw [zip_self_eq_map]
  simp only [List.mem_map, List.mem_range, Prod.mk.injEq]
  constructor
  · rintro ⟨i, hi, h1, h2⟩
    omega
  · rintro ⟨hab, ha⟩
    exact ⟨a, ha, rfl, hab⟩

theorem mem_pointsList {s : Nat} {p : Nat × Nat} :
    p ∈ pointsList s ↔ (p.1 < p.2 ∧ p.2 < s) ∨ (p.1 = p.2 ∧ p.1 < s) := by
  obtain ⟨a, b⟩ := p
  unfold pointsList
  rw [List.mem_append, mem_tupleCombinations, mem_diagPoints]

theorem mem_paintSeq {s x y : Nat} : (x, y) ∈ paintSeq s ↔ x < s ∧ y < s := by
  unfold paintSeq
  simp only [List.mem_flatMap]
  constructor
  · rintro ⟨p, hp, hmem⟩
    rw [mem_pointsList] at hp
    simp only [List.mem_cons, List.not_mem_nil, or_false, Prod.mk.injEq] at hmem
    rcases hmem with ⟨h1, h2⟩ | ⟨h1, h2⟩ <;>
      rcases hp with ⟨hp1, hp2⟩ | ⟨hp1, hp2⟩ <;> omega
  · rintro ⟨hx, hy⟩
    rcases Nat.lt_trichotomy x y with h | h | h
    · exact ⟨(x, y), mem_pointsList.mpr (Or.inl ⟨h, hy⟩), by simp⟩
    · exact ⟨(x, y), mem_pointsList.mpr (Or.inr ⟨h, hx⟩), by simp⟩
    · exact ⟨(y, x), mem_pointsList.mpr (Or.inl ⟨h, hx⟩), by simp⟩

theorem mem_allPairs {s x y : Nat} : (x, y) ∈ allPairs s ↔ x < s ∧ y < s := by
  unfold allPairs
  simp only [List.mem_flatMap, List.mem_map, List.mem_range, Prod.mk.injEq]
  constructor
  · rintro ⟨x1, hx1, y1, hy1, h1, h2⟩
    omega
  · rintro ⟨hx, hy⟩
    exact ⟨x, hx, y, hy, rfl, rfl⟩

theorem canvas_eq_nested (q : QrCode) (scale border : Int) (s i : Nat) :
    export_png_data q scale border s i = nestedLoopData q scale border s i := by
  unfold export_png_data nestedLoopData
  rw [foldl_paint_eval, foldl_paint_eval]
  have hiff : ((paintSeq s).any fun p =>
        painted q scale border p.1 p.2 && hitsByte s p i) = true ↔
      ((allPairs s).any fun p =>
        painted q scale border p.1 p.2 && hitsByte s p i) = true := by
    simp only [List.any_eq_true]
    constructor
    · rintro ⟨p, hp, hfp⟩
      obtain ⟨a, b⟩ := p
      exact ⟨(a, b), mem_allPairs.mpr (mem_paintSeq.mp hp), hfp⟩
    · rintro ⟨p, hp, hfp⟩
      obtain ⟨a, b⟩ := p
      exact ⟨(a, b), mem_paintSeq.mpr (mem_allPairs.mp hp), hfp⟩
  have heq : ((paintSeq s).any fun p =>
        painted q scale border p.1 p.2 && hitsByte s p i) =
      ((allPairs s).any fun p =>
        painted q scale border p.1 p.2 && hitsByte s p i) := by
    cases hA : (paintSeq s).any fun p =>
        painted q scale border p.1 p.2 && hitsByte s p i <;>
      cases hB : (allPairs s).any fun p =>
          painted q scale border p.1 p.2 && hitsByte s p i <;>
        simp_all
  rw [heq]

theorem count_flatMap_swap (l : List (Nat × Nat)) (x y : Nat) :
    ((l.flatMap fun p => [(p.2, p.1), (p.1, p.2)]).count (x, y)) =
      l.count (y, x) + l.count (x, y) := by
  induction l with
  | nil => rfl
  | cons p l ih =>
    obtain ⟨a, b⟩ := p
    simp only [List.flatMap_cons, List.count_append, ih, List.count_cons,
      List.count_nil, beq_iff_eq, Prod.mk.injEq]
    by_cases h1 : a = y <;> by_cases h2 : b = x <;> by_cases h3 : a = x <;>
      by_cases h4 : b = y <;> simp_all <;> omega

theorem count_map_pair (a b : Nat) (l : List Nat) :
    ((l.map fun c => (a, c)).count (a, b)) = l.count b := by
  induction l with
  | nil => rfl
  | cons c l ih =>
    simp only [List.map_cons, List.count_cons, ih, beq_iff_eq, Prod.mk.injEq]
    by_cases h : c = b <;> simp [h]

theorem count_map_diag (l : List Nat) (x y : Nat) :
    ((l.map fun i => (i, i)).count (x, y)) = if x = y then l.count x else 0 := by
  induction l with
  | nil => simp
  | cons c l ih =>
    simp only [List.map_cons, List.count_cons, ih, beq_iff_eq, Prod.mk.injEq]
    by_cases h1 : x = y <;> by_cases h2 : c = x <;> by_cases h3 : c = y <;>
      simp_all

theorem count_filter_eq (p : Nat → Bool) (b : Nat) (l : List Nat) :
    ((l.filter p).count b) = if p b = true then l.count b else 0 := by
  by_cases hpb : p b = true
  · rw [if_pos hpb, List.count_filter hpb]
  · rw [if_neg hpb]
    exact List.count_eq_zero.mpr fun hmem => hpb (List.mem_filter.mp hmem).2

theorem count_range_eq (b s : Nat) :
    ((List.range s).count b) = if b < s then 1 else 0 := by
  induction s with
  | zero => simp
  | succ s ih =>
    rw [List.range_succ, List.count_append, ih]
    simp only [List.count_cons, List.count_nil, beq_iff_eq]
    split_ifs <;> omega

theorem count_flatMap_fst (g : Nat → List (Nat × Nat))
    (hg : ∀ a p, p ∈ g a → p.1 = a) :
    ∀ (l : List Nat), l.Nodup → ∀ (a b : Nat),
      ((l.flatMap g).count (a, b)) = if a ∈ l then (g a).count (a, b) else 0 := by
  intro l
  induction l with
  | nil =>
    intro _ a b
    simp
  | cons c l ih =>
    intro hnd a b
    rcases List.nodup_cons.mp hnd with ⟨hc, hl⟩
    rw [List.flatMap_cons, List.count_append, ih hl a b]
    by_cases hac : a = c
    · subst hac
      rw [if_neg hc, if_pos (List.mem_cons_self a l)]
      omega
    · have hz : ((g c).count (a, b)) = 0 :=
        List.count_eq_zero.mpr fun hmem => hac (hg c (a, b) hmem)
      rw [hz]
      by_cases hal : a ∈ l
      · rw [if_pos hal, if_pos (List.mem_cons_of_mem c hal)]
        omega
      · rw [if_neg hal, if_neg (by simp [List.mem_cons, hac, hal])]

theorem count_tupleCombinations (s a b : Nat) :
    ((tupleCombinations s).count (a, b)) = if a < b ∧ b < s then 1 else 0 := by
  unfold tupleCombinations
  rw [count_flatMap_fst
      (fun a => ((List.range s).filter fun b => decide (a < b)).map fun b => (a, b))
      (by
        intro a2 p hp
        rcases List.mem_map.mp hp with ⟨c, hc, heq⟩
        rw [← heq])
      (List.range s) (List.nodup_range s) a b]
  rw [count_map_pair, count_filter_eq, count_range_eq]
  simp only [List.mem_range, decide_eq_true_eq]
  split_ifs <;> omega

theorem count_diagPoints (s a b : Nat) :
    ((diagPoints s).count (a, b)) = if a = b ∧ a < s then 1 else 0 := by
  unfold diagPoints
  rw [zip_self_eq_map, count_map_diag, count_range_eq]
  by_cases h1 : a = b <;> by_cases h2 : a < s <;> simp_all

theorem count_pointsList (s a b : Nat) :
    ((pointsList s).count (a, b)) =
      (if a < b ∧ b < s then 1 else 0) + (if a = b ∧ a < s then 1 else 0) := by
  unfold pointsList
  rw [List.count_append, count_tupleCombinations, count_diagPoints]

theorem count_paintSeq (s x y : Nat) (hx : x < s) (hy : y < s) :
    ((paintSeq s).count (x, y)) = if x = y then 2 else 1 := by
  unfold paintSeq
  rw [count_flatMap_swap, count_pointsList, count_pointsList]
  split_ifs <;> omega

/-- C9: a successful checked_length is exactly the square times the depth, so
data_length is s * s * 3, and every byte access of the pixel loop is in
bounds: for x and y below s, offset_fn (x, y, s, 3) + 2 is below s * s * 3,
so the three byte stores never reach past the canvas. -/
theorem c9_loop_in_bounds :
    (∀ sz dl : Int, checked_length (some sz) 3 = some dl → dl = sz * sz * 3) ∧
      ∀ s x y : Nat, x < s → y < s →
        offset_fn x y s colour_type_samples + 2 < s * s * 3 := by
  constructor
  · intro sz dl h
    unfold checked_length checkedMul at h
    by_cases h0 : ((3 : Nat) : Int) ≤ i32Max
    · rw [if_pos h0] at h
      simp only [Option.some_bind] at h
      by_cases h1 : i32Min ≤ sz * sz ∧ sz * sz ≤ i32Max
      · rw [if_pos h1] at h
        simp only [Option.some_bind] at h
        by_cases h2 : i32Min ≤ sz * sz * ((3 : Nat) : Int) ∧
            sz * sz * ((3 : Nat) : Int) ≤ i32Max
        · rw [if_pos h2] at h
          simp only [Option.some.injEq] at h
          rw [← h]
          norm_num
        · rw [if_neg h2] at h
          simp at h
      · rw [if_neg h1] at h
        simp at h
    · rw [if_neg h0] at h
      simp at h
  · intro s x y hx hy
    unfold offset_fn colour_type_samples
    have h2 : y + 1 ≤ s := hy
    have h4 : y * (s * 3) + s * 3 ≤ s * s * 3 := by
      calc y * (s * 3) + s * 3 = (y + 1) * (s * 3) := by ring
        _ ≤ s * (s * 3) := mul_le_mul_right' h2 (s * 3)
        _ = s * s * 3 := by ring
    have h5 : x * 3 + 2 < s * 3 := by omega
    calc x * 3 + y * (s * 3) + 2 = x * 3 + 2 + y * (s * 3) := by ring
      _ < s * 3 + y * (s * 3) := Nat.add_lt_add_right h5 _
      _ = y * (s * 3) + s * 3 := by ring
      _ ≤ s * s * 3 := h4

/-- C9 witness: checked_length of 290 at depth 3 succeeded with 252300, which
indeed equals 290 * 290 * 3, and at s = 2 the byte accesses of pixel (1, 1)
stay below 12. -/
theorem c9_witness :
    (252300 : Int) = 290 * 290 * 3 ∧
      offset_fn 1 1 2 colour_type_samples + 2 < 2 * 2 * 3 :=
  ⟨c9_loop_in_bounds.1 290 252300 (by decide),
    c9_loop_in_bounds.2 2 1 1 (by decide) (by decide)⟩

/-- C4: for a matrix, a nonnegative border and a positive scale whose checked
geometry succeeds with size sz, every byte of every pixel (x, y) of the canvas
holds the foreground 0 exactly when the back mapped module coordinate
(x / scale - border, y / scale - border), with truncating division, lies in
[0, N) in both axes and that module is set; every other pixel, the border
region included, keeps the background 255, the out of range lookups reading
as unset rather than failing. -/
theorem c4_pixel_roundtrip (q : QrCode) (border scale sz : Int)
    (hb : 0 ≤ border) (hs : 0 < scale) (hn : 0 ≤ q.size)
    (hgeom : checked_size (some q.size) scale border = some sz)
    (x y k : Nat) (hx : x < sz.toNat) (hy : y < sz.toNat) (hk : k < 3) :
    export_png_data q scale border sz.toNat
        (offset_fn x y sz.toNat colour_type_samples + k) =
      if 0 ≤ (x : Int).tdiv scale - border ∧
          (x : Int).tdiv scale - border < q.size ∧
          0 ≤ (y : Int).tdiv scale - border ∧
          (y : Int).tdiv scale - border < q.size ∧
          q.module ((x : Int).tdiv scale - border) ((y : Int).tdiv scale - border)
            = true
      then 0 else 255 := by
  unfold export_png_data
  rw [foldl_paint_eval]
  have hcond : ((paintSeq sz.toNat).any fun p =>
      painted q scale border p.1 p.2 &&
        hitsByte sz.toNat p (offset_fn x y sz.toNat colour_type_samples + k)) =
      painted q scale border x y := by
    cases hpaint : painted q scale border x y with
    | true =>
      refine List.any_eq_true.mpr ⟨(x, y), mem_paintSeq.mpr ⟨hx, hy⟩, ?_⟩
      rw [hpaint]
      simp only [Bool.true_and]
      unfold hitsByte
      interval_cases k <;> simp
    | false =>
      refine List.any_eq_false.mpr ?_
      rintro ⟨a, b⟩ hmem
      obtain ⟨ha, hb2⟩ := mem_paintSeq.mp hmem
      intro hpb
      obtain ⟨hpab, hhits⟩ := Bool.and_eq_true_iff.mp hpb
      unfold hitsByte at hhits
      simp only [Bool.or_eq_true, beq_iff_eq, or_assoc] at hhits
      have habk : a = x ∧ b = y := by
        rcases hhits with h | h | h
        · have h0 : offset_fn a b sz.toNat colour_type_samples + 0 =
              offset_fn x y sz.toNat colour_type_samples + k := by
            rw [Nat.add_zero]
            exact h.symm
          obtain ⟨h1, h2, _⟩ := bytes_addr_inj ha hx (by omega) hk h0
          exact ⟨h1, h2⟩
        · obtain ⟨h1, h2, _⟩ := bytes_addr_inj ha hx (by omega) hk h.symm
          exact ⟨h1, h2⟩
        · obtain ⟨h1, h2, _⟩ := bytes_addr_inj ha hx (by omega) hk h.symm
          exact ⟨h1, h2⟩
      rcases habk with ⟨h1, h2⟩
      subst h1
      subst h2
      rw [hpaint] at hpab
      cases hpab
  rw [hcond]
  unfold painted get_module
  by_cases hrange : 0 ≤ (x : Int).tdiv scale - border ∧
      (x : Int).tdiv scale - border < q.size ∧
      0 ≤ (y : Int).tdiv scale - border ∧
      (y : Int).tdiv scale - border < q.size
  · rw [if_pos hrange]
    by_cases hm : q.module ((x : Int).tdiv scale - border)
        ((y : Int).tdiv scale - border) = true
    · rw [if_pos hm,
        if_pos ⟨hrange.1, hrange.2.1, hrange.2.2.1, hrange.2.2.2, hm⟩]
    · rw [if_neg hm, if_neg fun hc => hm hc.2.2.2.2]
  · rw [if_neg hrange]
    rw [if_neg Bool.false_ne_true,
      if_neg fun hc => hrange ⟨hc.1, hc.2.1, hc.2.2.1, hc.2.2.2.1⟩]

/-- C4 witness: a one module matrix whose module is set, border 0 and scale 1
give a size 1 canvas whose single pixel is painted to 0. -/
theorem c4_witness :
    export_png_data ⟨1, fun _ _ => true⟩ 1 0 1 0 = 0 := by
  have h := c4_pixel_roundtrip ⟨1, fun _ _ => true⟩ 0 1 1 (by decide) (by decide)
    (by decide) (by decide) 0 0 0 (by decide) (by decide) (by decide)
  rw [if_pos (by decide)] at h
  exact h

/-- C10 (amended): the points traversal visits every off diagonal ordered
pixel pair exactly once but every diagonal pair exactly twice (each zip point
is applied in two identical orders), and since painting is idempotent the
resulting canvas still equals, byte for byte, the canvas of a plain nested
loop over all pixel coordinates. -/
theorem c10_traversal :
    (∀ s x y : Nat, x < s → y < s →
        ((paintSeq s).count (x, y)) = if x = y then 2 else 1) ∧
      ∀ (q : QrCode) (scale border : Int) (s i : Nat),
        export_png_data q scale border s i = nestedLoopData q scale border s i :=
  ⟨count_paintSeq, canvas_eq_nested⟩

/-- C10 counterexample: the single pixel (0, 0) of a size 1 canvas is visited
twice by the traversal, not exactly once as claimed. -/
theorem c10_cex : ¬ (((paintSeq 1).count (0, 0)) = 1) := by decide

/-- C10 witness: the off diagonal pixel (0, 1) of a size 2 canvas is visited
exactly once, and a concrete canvas byte agrees with the nested loop canvas. -/
theorem c10_witness :
    (((paintSeq 2).count (0, 1)) = if (0 : Nat) = 1 then 2 else 1) ∧
      export_png_data ⟨1, fun _ _ => false⟩ 1 0 1 5 =
        nestedLoopData ⟨1, fun _ _ => false⟩ 1 0 1 5 :=
  ⟨c10_traversal.1 2 0 1 (by decide) (by decide),
    c10_traversal.2 ⟨1, fun _ _ => false⟩ 1 0 1 5⟩

end QrGen
